/-
Verification of the SideNote comment store and view presenter.

The development shallowly embeds the TypeScript sources:
  - src/commentManager.ts : the Comment record and the CommentManager
    operations (getCommentsForFile, addComment, editComment, deleteComment),
    modelled as pure functions on a `List Comment` (the manager's private
    `comments` array, read in storage order).
  - src/main.ts : the sort comparators of SideNoteView.renderComments, the
    persisted-data shape (PluginData) and SideNote.loadPluginData /
    SideNote.saveData.

JavaScript numbers used by the sources (line/char coordinates, Date.now()
timestamps) are integer-valued here, so they are modelled as `Int`; the
subtraction comparators passed to Array.prototype.sort are kept as `Int`
subtractions.  Array.prototype.sort is stable (ECMAScript 2019), and a stable
sort is modelled by Mathlib's `List.insertionSort`, which is stable, with the
relation "comparator result ≤ 0".
-/
import Mathlib

/-- The Comment record of src/commentManager.ts. -/
structure Comment where
  filePath : String
  startLine : Int
  startChar : Int
  endLine : Int
  endChar : Int
  selectedText : String
  comment : String
  timestamp : Int
deriving DecidableEq, Repr

/-- CommentManager.getCommentsForFile: `this.comments.filter(c => c.filePath === filePath)`. -/
def getCommentsForFile (comments : List Comment) (filePath : String) : List Comment :=
  comments.filter (fun c => c.filePath == filePath)

/-- CommentManager.addComment: `this.comments.push(newComment)`. -/
def addComment (comments : List Comment) (newComment : Comment) : List Comment :=
  comments ++ [newComment]

/-- CommentManager.editComment: `find` the first comment whose `timestamp`
matches and overwrite its `comment` field; nothing happens when no comment
matches. -/
def editComment (comments : List Comment) (timestamp : Int) (newCommentText : String) :
    List Comment :=
  match comments with
  | [] => []
  | c :: rest =>
      if c.timestamp = timestamp then { c with comment := newCommentText } :: rest
      else c :: editComment rest timestamp newCommentText

/-- CommentManager.deleteComment: `findIndex` on `timestamp`, then `splice`
out that single element; nothing happens when `findIndex` returns -1. -/
def deleteComment (comments : List Comment) (timestamp : Int) : List Comment :=
  match comments with
  | [] => []
  | c :: rest =>
      if c.timestamp = timestamp then rest
      else c :: deleteComment rest timestamp

/-- The position comparator of SideNoteView.renderComments:
`(a, b) => a.startLine === b.startLine ? a.startChar - b.startChar : a.startLine - b.startLine`. -/
def positionCompare (a b : Comment) : Int :=
  if a.startLine = b.startLine then a.startChar - b.startChar
  else a.startLine - b.startLine

/-- The timestamp comparator of SideNoteView.renderComments:
`(a, b) => a.timestamp - b.timestamp`. -/
def timestampCompare (a b : Comment) : Int :=
  a.timestamp - b.timestamp

/-- A comparator result of at most zero: `a` need not be placed after `b`. -/
def positionLE (a b : Comment) : Prop := positionCompare a b ≤ 0

/-- A comparator result of at most zero for the timestamp comparator. -/
def timestampLE (a b : Comment) : Prop := timestampCompare a b ≤ 0

instance : DecidableRel positionLE :=
  fun a b => inferInstanceAs (Decidable (positionCompare a b ≤ 0))

instance : DecidableRel timestampLE :=
  fun a b => inferInstanceAs (Decidable (timestampCompare a b ≤ 0))

/-- The strict position order the specification describes: earlier start line,
or the same start line and an earlier start character. -/
def posLt (a b : Comment) : Prop :=
  a.startLine < b.startLine ∨ (a.startLine = b.startLine ∧ a.startChar < b.startChar)

instance : DecidableRel posLt := fun a b =>
  inferInstanceAs (Decidable (a.startLine < b.startLine ∨
    (a.startLine = b.startLine ∧ a.startChar < b.startChar)))

/-- The sort key of the position comparator. -/
def posKey (c : Comment) : Int × Int := (c.startLine, c.startChar)

/-- `commentsForFile.sort(positionComparator)`: a stable sort under the
position comparator. -/
def sortByPosition (l : List Comment) : List Comment :=
  List.insertionSort positionLE l

/-- `commentsForFile.sort(timestampComparator)`: a stable sort under the
timestamp comparator. -/
def sortByTimestamp (l : List Comment) : List Comment :=
  List.insertionSort timestampLE l

/-- Sanity check mirroring the spec scenario: line-2 comment sorts before
line-5 comment. -/
example :
    sortByPosition
      [⟨"a.md", 5, 0, 5, 1, "s", "c1", 10⟩, ⟨"a.md", 2, 0, 2, 1, "s", "c2", 20⟩] =
      [⟨"a.md", 2, 0, 2, 1, "s", "c2", 20⟩, ⟨"a.md", 5, 0, 5, 1, "s", "c1", 10⟩] := by
  decide

/-- The `commentSortOrder` setting of src/main.ts: "timestamp" | "position". -/
inductive CommentSortOrder where
  | timestamp
  | position
deriving DecidableEq, Repr

/-- The SideNoteSettings record of src/main.ts. -/
structure SideNoteSettings where
  commentSortOrder : CommentSortOrder
deriving DecidableEq, Repr

/-- DEFAULT_SETTINGS of src/main.ts. -/
def DEFAULT_SETTINGS : SideNoteSettings :=
  { commentSortOrder := CommentSortOrder.position }

/-- The raw persisted record as `loadData` may hand it back: either field can
be absent (`undefined`), which is what `Object.assign` over `\x7b comments: [] \x7d`
and the `||` defaulting in loadPluginData compensate for.  `loadData` itself
can return null, modelled by wrapping in `Option` at the call site. -/
structure StoredData where
  commentSortOrder : Option CommentSortOrder
  comments : Option (List Comment)
deriving DecidableEq, Repr

/-- SideNote.loadPluginData: merge the loaded record over the defaults.  A
null result of `loadData` or an absent field falls back to `DEFAULT_SETTINGS`
(for the sort order, via `||`, both enum strings being truthy) and to the
empty collection (for `comments`, via the `Object.assign` seed and `|| []`).
Returns the settings together with the comment collection. -/
def loadPluginData (stored : Option StoredData) : SideNoteSettings × List Comment :=
  match stored with
  | none => (DEFAULT_SETTINGS, [])
  | some d =>
      ({ commentSortOrder := d.commentSortOrder.getD DEFAULT_SETTINGS.commentSortOrder },
       d.comments.getD [])

/-- SideNote.saveData: always persist the full settings-plus-comments
snapshot, every field present. -/
def saveData (settings : SideNoteSettings) (comments : List Comment) : StoredData :=
  { commentSortOrder := some settings.commentSortOrder,
    comments := some comments }

/-- A minimal heap of JavaScript arrays of comments, to make array identity
expressible: each array lives at an index of `arrays`.  The store's backing
array (`CommentManager.comments`) sits at some index; `Array.prototype.filter`
allocates a fresh array. -/
structure Heap where
  arrays : List (List Comment)
deriving DecidableEq, Repr

/-- Read the array stored at index `i` (absent indices read as empty). -/
def Heap.getArr (h : Heap) (i : Nat) : List Comment :=
  h.arrays.getD i []

/-- Overwrite the array at index `i` in place. -/
def Heap.setArr (h : Heap) (i : Nat) (a : List Comment) : Heap :=
  { arrays := h.arrays.set i a }

/-- Allocate a fresh array holding `a`; returns the new heap and the fresh
index. -/
def Heap.alloc (h : Heap) (a : List Comment) : Heap × Nat :=
  ({ arrays := h.arrays ++ [a] }, h.arrays.length)

/-- CommentManager.getCommentsForFile at the heap level: `filter` reads the
store array and allocates a fresh result array (ECMAScript: filter returns a
new array); the store array itself is not written. -/
def getCommentsForFileAlloc (h : Heap) (storeId : Nat) (filePath : String) : Heap × Nat :=
  h.alloc (getCommentsForFile (h.getArr storeId) filePath)

/-- Dispatch on the configured sort order, as renderComments does. -/
def sortComments (order : CommentSortOrder) (l : List Comment) : List Comment :=
  match order with
  | CommentSortOrder.position => sortByPosition l
  | CommentSortOrder.timestamp => sortByTimestamp l

/-- SideNoteView.renderComments, reduced to its data flow: fetch the comments
for the file (a fresh array), then `sort` that array in place.  Returns the
heap after the in-place sort and the index of the displayed array. -/
def renderComments (h : Heap) (storeId : Nat) (filePath : String)
    (order : CommentSortOrder) : Heap × Nat :=
  let fetched := getCommentsForFileAlloc h storeId filePath
  let h1 := fetched.1
  let rid := fetched.2
  (h1.setArr rid (sortComments order (h1.getArr rid)), rid)

/-- A fallback comment used only to give list indexing a default value. -/
def defaultComment : Comment :=
  ⟨"", 0, 0, 0, 0, "", "", 0⟩

/-- A concrete comment for instantiating the theorems. -/
def cOne : Comment := ⟨"a.md", 1, 0, 1, 4, "alpha", "first", 100⟩

/-- A concrete comment positioned after `cOne` and created after it. -/
def cTwo : Comment := ⟨"a.md", 2, 3, 2, 9, "beta", "second", 200⟩

/-- A concrete comment belonging to a different file. -/
def cOther : Comment := ⟨"b.md", 0, 0, 0, 2, "gamma", "third", 300⟩

/-- A concrete comment sharing its creation timestamp with `cOne`. -/
def cDup : Comment := ⟨"a.md", 5, 1, 5, 2, "delta", "fourth", 100⟩

/-- A concrete comment sharing its (startLine, startChar) key with `cOne`. -/
def cTie : Comment := ⟨"a.md", 1, 0, 1, 7, "epsilon", "fifth", 400⟩

/-- Claim C4 as stated: in the position-sorted result, an element appears
strictly earlier than another exactly when it is strictly smaller in the
(startLine, then startChar) order. -/
def claimC4Holds (l : List Comment) : Prop :=
  ∀ i, i < (sortByPosition l).length → ∀ j, j < (sortByPosition l).length → i ≠ j →
    (i < j ↔ posLt ((sortByPosition l).getD i defaultComment)
      ((sortByPosition l).getD j defaultComment))

/-- Claim C5 as stated: in the timestamp-sorted result, every element's
timestamp is strictly below that of each later element. -/
def claimC5Holds (l : List Comment) : Prop :=
  ∀ i, i < (sortByTimestamp l).length → ∀ j, j < (sortByTimestamp l).length → i < j →
    ((sortByTimestamp l).getD i defaultComment).timestamp <
      ((sortByTimestamp l).getD j defaultComment).timestamp

instance : IsTotal Comment positionLE := by
  constructor
  intro a b
  simp only [positionLE, positionCompare]
  by_cases h : a.startLine = b.startLine <;> simp [h, eq_comm] <;> omega

instance : IsTrans Comment positionLE := by
  constructor
  intro a b c
  simp only [positionLE, positionCompare]
  by_cases hab : a.startLine = b.startLine <;>
    by_cases hbc : b.startLine = c.startLine <;>
      by_cases hac : a.startLine = c.startLine <;>
        simp [hab, hbc, hac] <;> omega

instance : IsTotal Comment timestampLE := by
  constructor
  intro a b
  simp only [timestampLE, timestampCompare]
  omega

instance : IsTrans Comment timestampLE := by
  constructor
  intro a b c
  simp only [timestampLE, timestampCompare]
  omega

theorem pairwise_getD {r : Comment → Comment → Prop} {l : List Comment}
    (h : List.Pairwise r l) (i j : Nat) (hij : i < j) (hj : j < l.length) :
    r (l.getD i defaultComment) (l.getD j defaultComment) := by
  have hi : i < l.length := lt_trans hij hj
  have := List.pairwise_iff_get.mp h ⟨i, hi⟩ ⟨j, hj⟩ hij
  simpa [List.getD, List.get?_eq_get, hi, hj] using this

theorem positionLE_of_posKey_eq {x y : Comment} (h : posKey x = posKey y) :
    positionLE x y := by
  simp only [posKey, Prod.mk.injEq] at h
  simp only [positionLE, positionCompare, h.1, h.2, if_pos]
  omega

theorem timestampLE_of_timestamp_eq {x y : Comment} (h : x.timestamp = y.timestamp) :
    timestampLE x y := by
  simp only [timestampLE, timestampCompare, h]
  omega

theorem not_posLt_of_positionLE {a b : Comment} (h : positionLE b a) : ¬ posLt a b := by
  simp only [positionLE, positionCompare] at h
  simp only [posLt]
  by_cases hba : b.startLine = a.startLine <;> simp [hba] at h ⊢ <;> omega

theorem positionLE_cases {a b : Comment} (h : positionLE a b) :
    posLt a b ∨ posKey a = posKey b := by
  simp only [positionLE, positionCompare] at h
  simp only [posLt, posKey, Prod.mk.injEq]
  by_cases hab : a.startLine = b.startLine <;> simp [hab] at h ⊢ <;> omega

theorem filter_orderedInsert_key {β : Type} [DecidableEq β] (key : Comment → β)
    (r : Comment → Comment → Prop) [DecidableRel r]
    (hkey : ∀ x y, key x = key y → r x y) (a : Comment) (l : List Comment) (k : β) :
    (List.orderedInsert r a l).filter (fun c => decide (key c = k)) =
      if key a = k then a :: l.filter (fun c => decide (key c = k))
      else l.filter (fun c => decide (key c = k)) := by
  induction l with
  | nil =>
      by_cases hak : key a = k <;> simp [List.orderedInsert, List.filter, hak]
  | cons b l ih =>
      by_cases hrab : r a b
      · by_cases hak : key a = k <;>
          simp [List.orderedInsert, hrab, List.filter_cons, hak]
      · by_cases hak : key a = k
        · have hbk : ¬ key b = k := by
            intro hbk
            exact hrab (hkey a b (hak.trans hbk.symm))
          simp [List.orderedInsert, hrab, List.filter_cons, hbk, ih, hak]
        · by_cases hbk : key b = k <;>
            simp [List.orderedInsert, hrab, List.filter_cons, ih, hak, hbk]

theorem filter_insertionSort_key {β : Type} [DecidableEq β] (key : Comment → β)
    (r : Comment → Comment → Prop) [DecidableRel r]
    (hkey : ∀ x y, key x = key y → r x y) (l : List Comment) (k : β) :
    (List.insertionSort r l).filter (fun c => decide (key c = k)) =
      l.filter (fun c => decide (key c = k)) := by
  induction l with
  | nil => rfl
  | cons a l ih =>
      simp only [List.insertionSort]
      rw [filter_orderedInsert_key key r hkey]
      by_cases hak : key a = k <;> simp [List.filter_cons, hak, ih]

theorem editComment_append (l1 l2 : List Comment) (k : Int) (t : String)
    (h : ∀ a ∈ l1, a.timestamp ≠ k) :
    editComment (l1 ++ l2) k t = l1 ++ editComment l2 k t := by
  induction l1 with
  | nil => rfl
  | cons c l1 ih =>
      have hc : c.timestamp ≠ k := h c (List.mem_cons_self c l1)
      simp only [List.cons_append, editComment, if_neg hc]
      exact congrArg (List.cons c) (ih (fun a ha => h a (List.mem_cons_of_mem c ha)))

theorem deleteComment_append (l1 l2 : List Comment) (k : Int)
    (h : ∀ a ∈ l1, a.timestamp ≠ k) :
    deleteComment (l1 ++ l2) k = l1 ++ deleteComment l2 k := by
  induction l1 with
  | nil => rfl
  | cons c l1 ih =>
      have hc : c.timestamp ≠ k := h c (List.mem_cons_self c l1)
      simp only [List.cons_append, deleteComment, if_neg hc]
      exact congrArg (List.cons c) (ih (fun a ha => h a (List.mem_cons_of_mem c ha)))

theorem editComment_not_found (l : List Comment) (k : Int) (t : String)
    (h : ∀ a ∈ l, a.timestamp ≠ k) :
    editComment l k t = l := by
  induction l with
  | nil => rfl
  | cons c l ih =>
      have hc : c.timestamp ≠ k := h c (List.mem_cons_self c l)
      simp only [editComment, if_neg hc]
      rw [ih (fun a ha => h a (List.mem_cons_of_mem c ha))]

theorem deleteComment_not_found (l : List Comment) (k : Int)
    (h : ∀ a ∈ l, a.timestamp ≠ k) :
    deleteComment l k = l := by
  induction l with
  | nil => rfl
  | cons c l ih =>
      have hc : c.timestamp ≠ k := h c (List.mem_cons_self c l)
      simp only [deleteComment, if_neg hc]
      rw [ih (fun a ha => h a (List.mem_cons_of_mem c ha))]

/-- C1: for every store contents and document path p, query(p) returns exactly
the comments whose documentPath equals p, in storage order: the result is an
order-preserving sublist of the store, every returned comment carries path p,
and the result has one entry for each matching comment of the store. -/
theorem getCommentsForFile_query_spec (l : List Comment) (p : String) :
    (getCommentsForFile l p).Sublist l
    ∧ (getCommentsForFile l p).all (fun c => c.filePath == p) = true
    ∧ (getCommentsForFile l p).length = l.countP (fun c => c.filePath == p) := by
  refine ⟨List.filter_sublist _, ?_, ?_⟩
  · rw [List.all_eq_true]
    intro c hc
    exact (List.mem_filter.mp hc).2
  · simp [getCommentsForFile, List.countP_eq_length_filter]

/-- C2: when the store contains a unique comment with createdAt key k,
update(k, t) rewrites exactly that comment's commentText to t, keeping its
other fields, every other comment, and the length and order of the
collection. -/
theorem editComment_updates_only_target (l1 l2 : List Comment) (c : Comment) (k : Int)
    (t : String) (hc : c.timestamp = k)
    (hu1 : ∀ a ∈ l1, a.timestamp ≠ k) (_hu2 : ∀ a ∈ l2, a.timestamp ≠ k) :
    editComment (l1 ++ c :: l2) k t = l1 ++ { c with comment := t } :: l2
    ∧ (editComment (l1 ++ c :: l2) k t).length = (l1 ++ c :: l2).length := by
  have h1 : editComment (l1 ++ c :: l2) k t = l1 ++ editComment (c :: l2) k t :=
    editComment_append l1 (c :: l2) k t hu1
  have h2 : editComment (c :: l2) k t = { c with comment := t } :: l2 := by
    simp [editComment, hc]
  refine ⟨by rw [h1, h2], by rw [h1, h2]; simp⟩

/-- Witness for C2 at a concrete two-comment store. -/
theorem editComment_updates_only_target_witness :
    cOne.timestamp = 100
    ∧ (∀ a ∈ [cOther], a.timestamp ≠ (100 : Int))
    ∧ (∀ a ∈ [cTwo], a.timestamp ≠ (100 : Int))
    ∧ editComment [cOther, cOne, cTwo] 100 "revised" =
        [cOther, { cOne with comment := "revised" }, cTwo] :=
  ⟨rfl, by decide, by decide,
   (editComment_updates_only_target [cOther] [cTwo] cOne 100 "revised" rfl
     (by decide) (by decide)).1⟩

/-- C3: remove(k) deletes exactly the comment with createdAt k when one is
present, keeping the remaining comments in their original relative order, and
is an exact no-op when no comment has that key. -/
theorem deleteComment_removes_only_target :
    (∀ (l1 l2 : List Comment) (c : Comment) (k : Int), c.timestamp = k →
        (∀ a ∈ l1, a.timestamp ≠ k) → (∀ a ∈ l2, a.timestamp ≠ k) →
        deleteComment (l1 ++ c :: l2) k = l1 ++ l2)
    ∧ (∀ (l : List Comment) (k : Int), (∀ a ∈ l, a.timestamp ≠ k) →
        deleteComment l k = l) := by
  constructor
  · intro l1 l2 c k hc hu1 hu2
    clear hu2
    rw [deleteComment_append l1 (c :: l2) k hu1]
    simp [deleteComment, hc]
  · intro l k h
    exact deleteComment_not_found l k h

/-- Witness for C3: deletion of a present key and the no-op on an absent key,
at concrete stores. -/
theorem deleteComment_removes_only_target_witness :
    cOne.timestamp = 100
    ∧ deleteComment [cOther, cOne, cTwo] 100 = [cOther, cTwo]
    ∧ deleteComment [cOne, cTwo] 999 = [cOne, cTwo] :=
  ⟨rfl,
   deleteComment_removes_only_target.1 [cOther] [cTwo] cOne 100 rfl (by decide) (by decide),
   deleteComment_removes_only_target.2 [cOne, cTwo] 999 (by decide)⟩

/-- C6: after append(c), query on c's own path includes c; append changes the
query result for any path only by possibly adding c at the end, so existing
entries are neither removed nor mutated, there is no deduplication, and the
collection grows by exactly one entry. -/
theorem addComment_query_spec (l : List Comment) (c : Comment) (p : String) :
    getCommentsForFile (addComment l c) p =
      getCommentsForFile l p ++ (if c.filePath = p then [c] else [])
    ∧ c ∈ getCommentsForFile (addComment l c) c.filePath
    ∧ (addComment l c).length = l.length + 1 := by
  refine ⟨?_, ?_, by simp [addComment]⟩
  · simp only [getCommentsForFile, addComment, List.filter_append, List.filter_cons,
      List.filter_nil]
    by_cases hc : c.filePath = p <;> simp [hc]
  · simp [getCommentsForFile, addComment, List.mem_filter]

/-- C7: the store operations are total and raise nothing; in particular, for a
key absent from the store both update and remove return the store exactly
unchanged. -/
theorem editComment_deleteComment_absent_noop (l : List Comment) (k : Int) (t : String)
    (h : ∀ a ∈ l, a.timestamp ≠ k) :
    editComment l k t = l ∧ deleteComment l k = l :=
  ⟨editComment_not_found l k t h, deleteComment_not_found l k h⟩

/-- Witness for C7 at a concrete store and an absent key. -/
theorem editComment_deleteComment_absent_noop_witness :
    (∀ a ∈ [cOne, cTwo], a.timestamp ≠ (999 : Int))
    ∧ editComment [cOne, cTwo] 999 "zap" = [cOne, cTwo]
    ∧ deleteComment [cOne, cTwo] 999 = [cOne, cTwo] :=
  ⟨by decide,
   (editComment_deleteComment_absent_noop [cOne, cTwo] 999 "zap" (by decide)).1,
   (editComment_deleteComment_absent_noop [cOne, cTwo] 999 "zap" (by decide)).2⟩

/-- C9: with several comments sharing the key k, update and remove act on the
first one in storage order only; the suffix holding the later duplicates is
returned untouched. -/
theorem firstMatch_wins (l1 l2 : List Comment) (c d : Comment) (k : Int) (t : String)
    (hc : c.timestamp = k) (_hd : d ∈ l2) (_hdk : d.timestamp = k)
    (h1 : ∀ a ∈ l1, a.timestamp ≠ k) :
    editComment (l1 ++ c :: l2) k t = l1 ++ { c with comment := t } :: l2
    ∧ deleteComment (l1 ++ c :: l2) k = l1 ++ l2 := by
  constructor
  · rw [editComment_append l1 (c :: l2) k t h1]
    simp [editComment, hc]
  · rw [deleteComment_append l1 (c :: l2) k h1]
    simp [deleteComment, hc]

/-- Witness for C9: two comments both carrying timestamp 100; only the first
is edited, only the first is deleted. -/
theorem firstMatch_wins_witness :
    cOne.timestamp = 100 ∧ cDup ∈ [cDup] ∧ cDup.timestamp = 100
    ∧ editComment [cOne, cDup] 100 "patched" = [{ cOne with comment := "patched" }, cDup]
    ∧ deleteComment [cOne, cDup] 100 = [cDup] :=
  ⟨rfl, by decide, rfl,
   (firstMatch_wins [] [cDup] cOne cDup 100 "patched" rfl (by decide) rfl (by decide)).1,
   (firstMatch_wins [] [cDup] cOne cDup 100 "patched" rfl (by decide) rfl (by decide)).2⟩

/-- C8: saving the full settings-plus-comments snapshot and loading it back
reproduces equal settings and an equal comment collection. -/
theorem loadPluginData_saveData_roundtrip (s : SideNoteSettings) (cs : List Comment) :
    loadPluginData (some (saveData s cs)) = (s, cs) :=
  rfl

/-- C4 as stated is false: two comments with equal (startLine, startChar)
keys make the "appears before iff strictly smaller key" biconditional fail,
since the earlier one appears first yet neither key is strictly smaller. -/
theorem claimC4_counterexample : ¬ claimC4Holds [cOne, cTie] := by
  unfold claimC4Holds
  decide

/-- C4 amended: position sorting is a stable permutation whose output is
non-decreasing in the (startLine, then startChar) key; an element appears
before another if its key is strictly smaller, and when it appears before
another its key is strictly smaller or the two keys are equal (so the stated
biconditional holds exactly when the keys differ). -/
theorem sortByPosition_stable_sorted (l : List Comment) :
    (sortByPosition l).Perm l
    ∧ (∀ k : Int × Int, (sortByPosition l).filter (fun c => decide (posKey c = k)) =
        l.filter (fun c => decide (posKey c = k)))
    ∧ (∀ i, i < (sortByPosition l).length → ∀ j, j < (sortByPosition l).length → i < j →
        posLt ((sortByPosition l).getD i defaultComment)
            ((sortByPosition l).getD j defaultComment)
          ∨ posKey ((sortByPosition l).getD i defaultComment) =
              posKey ((sortByPosition l).getD j defaultComment))
    ∧ (∀ i, i < (sortByPosition l).length → ∀ j, j < (sortByPosition l).length →
        posLt ((sortByPosition l).getD i defaultComment)
            ((sortByPosition l).getD j defaultComment) → i < j) := by
  have hsorted : List.Pairwise positionLE (sortByPosition l) :=
    List.sorted_insertionSort positionLE l
  refine ⟨List.perm_insertionSort positionLE l, ?_, ?_, ?_⟩
  · intro k
    exact filter_insertionSort_key posKey positionLE
      (fun x y hxy => positionLE_of_posKey_eq hxy) l k
  · intro i _hi j hj hij
    exact positionLE_cases (pairwise_getD hsorted i j hij hj)
  · intro i hi j _hj hlt
    by_contra hnot
    have hcase : j < i ∨ j = i := by omega
    rcases hcase with hji | hji
    · exact not_posLt_of_positionLE (pairwise_getD hsorted j i hji hi) hlt
    · subst hji
      simp only [posLt] at hlt
      omega

/-- Witness for the amended C4 at a concrete out-of-order store. -/
theorem sortByPosition_stable_sorted_witness :
    0 < (sortByPosition [cTwo, cOne]).length
    ∧ 1 < (sortByPosition [cTwo, cOne]).length
    ∧ (0 : Nat) < 1
    ∧ (posLt ((sortByPosition [cTwo, cOne]).getD 0 defaultComment)
          ((sortByPosition [cTwo, cOne]).getD 1 defaultComment)
        ∨ posKey ((sortByPosition [cTwo, cOne]).getD 0 defaultComment) =
            posKey ((sortByPosition [cTwo, cOne]).getD 1 defaultComment))
    ∧ (sortByPosition [cTwo, cOne]).Perm [cTwo, cOne] :=
  ⟨by decide, by decide, by decide,
   (sortByPosition_stable_sorted [cTwo, cOne]).2.2.1 0 (by decide) 1 (by decide) (by decide),
   (sortByPosition_stable_sorted [cTwo, cOne]).1⟩

/-- C5 as stated is false: two comments created in the same millisecond carry
equal timestamps, and in the sorted result the earlier one is not strictly
below the later one. -/
theorem claimC5_counterexample : ¬ claimC5Holds [cOne, cDup] := by
  unfold claimC5Holds
  decide

/-- C5 amended: timestamp sorting permutes the list into non-decreasing
createdAt order; strictness holds only between distinct timestamps. -/
theorem sortByTimestamp_sorted (l : List Comment) :
    (sortByTimestamp l).Perm l
    ∧ (∀ i, i < (sortByTimestamp l).length → ∀ j, j < (sortByTimestamp l).length → i < j →
        ((sortByTimestamp l).getD i defaultComment).timestamp ≤
          ((sortByTimestamp l).getD j defaultComment).timestamp) := by
  have hsorted : List.Pairwise timestampLE (sortByTimestamp l) :=
    List.sorted_insertionSort timestampLE l
  refine ⟨List.perm_insertionSort timestampLE l, ?_⟩
  intro i _hi j hj hij
  have h := pairwise_getD hsorted i j hij hj
  simp only [timestampLE, timestampCompare] at h
  omega

/-- Witness for the amended C5 at a concrete out-of-order store. -/
theorem sortByTimestamp_sorted_witness :
    0 < (sortByTimestamp [cTwo, cOne]).length
    ∧ 1 < (sortByTimestamp [cTwo, cOne]).length
    ∧ (0 : Nat) < 1
    ∧ ((sortByTimestamp [cTwo, cOne]).getD 0 defaultComment).timestamp ≤
        ((sortByTimestamp [cTwo, cOne]).getD 1 defaultComment).timestamp
    ∧ (sortByTimestamp [cTwo, cOne]).Perm [cTwo, cOne] :=
  ⟨by decide, by decide, by decide,
   (sortByTimestamp_sorted [cTwo, cOne]).2 0 (by decide) 1 (by decide) (by decide),
   (sortByTimestamp_sorted [cTwo, cOne]).1⟩

/-- C10: renderComments sorts the freshly allocated array that query handed
back, not the store's backing array: after fetching and sorting in place, the
store array is unchanged, and the displayed array holds the sorted filtered
comments. -/
theorem renderComments_leaves_store_intact (h : Heap) (storeId : Nat) (p : String)
    (o : CommentSortOrder) (hs : storeId < h.arrays.length) :
    ((renderComments h storeId p o).1).getArr storeId = h.getArr storeId
    ∧ ((renderComments h storeId p o).1).getArr ((renderComments h storeId p o).2) =
        sortComments o (getCommentsForFile (h.getArr storeId) p) := by
  have hne : h.arrays.length ≠ storeId := (Nat.ne_of_lt hs).symm
  constructor
  · simp only [renderComments, getCommentsForFileAlloc, Heap.alloc, Heap.setArr, Heap.getArr,
      List.getD_eq_getElem?_getD]
    rw [List.getElem?_set_ne hne, List.getElem?_append_left hs]
  · simp only [renderComments, getCommentsForFileAlloc, Heap.alloc, Heap.setArr, Heap.getArr,
      List.getD_eq_getElem?_getD]
    rw [List.getElem?_set_self (by simp), List.getElem?_concat_length]
    simp

/-- Witness for C10 at a one-array heap whose store holds two comments. -/
theorem renderComments_leaves_store_intact_witness :
    0 < (Heap.mk [[cTwo, cOne]]).arrays.length
    ∧ ((renderComments (Heap.mk [[cTwo, cOne]]) 0 "a.md" CommentSortOrder.position).1).getArr 0 =
        (Heap.mk [[cTwo, cOne]]).getArr 0 :=
  ⟨by decide,
   (renderComments_leaves_store_intact (Heap.mk [[cTwo, cOne]]) 0 "a.md"
     CommentSortOrder.position (by decide)).1⟩
